import Mathlib

/-!
Verification development for the vespalib::gp genetic-programming core
(src/eval/src/vespa/eval/gp/gp.h, gp.cpp and the operation catalog in
src/eval/src/tests/gp/ponder_nov2017/ponder_nov2017.cpp).

Shallow embedding conventions:
- `Value = int` is modelled as `Int`; the guarded division overflow boundary
  `INT_MIN` is the explicit constant `-(2^31)`.  C++ `/` and `%` on `int`
  truncate toward zero and are modelled by `Int.tdiv` / `Int.tmod`.
- `Weakness = double` is modelled as `Rat`: the engine only ever copies and
  compares weakness values, so the comparison structure is what matters;
  floating-point rounding and NaN are out of scope.
- `Random` (`std::mt19937` + `std::uniform_int_distribution`) is modelled as an
  arbitrary stream of raw draws folded into the requested interval; quantifying
  over all streams covers every realizable sequence of in-range draws, and
  `get lo hi` lands in `[lo, hi]` whenever `lo ≤ hi`, exactly the distribution
  contract the code relies on.
- The C++ assertions are preconditions: the Lean functions are total (reads out
  of range take `getD` defaults) and each theorem carries the corresponding
  validity hypotheses.  Lookups whose C++ counterparts have no defined result
  for out-of-range codes (`OpRepo::name_of`, `OpRepo::cost_of`) return `Option`.
- The fitness hook `OpRepo::_find_weakness` takes the individual itself; to
  avoid type-level recursion between `OpRepo` and `Program` the hook field is
  carried by `Population` instead of `OpRepo`.  Behaviour is identical.
-/

namespace VespaGP

/-- Value is the C++ `int` value domain of the engine (gp.h line 12). -/
abbrev Value := Int

/-- Weakness is the C++ `double` fitness score, modelled as `Rat`. -/
abbrev Weakness := Rat

/-- Model of `vespalib::gp::Random` (gp.h lines 33-45): a stream of raw
pseudo-random draws together with a position.  `get lo hi` folds the next raw
draw into the interval `[lo, hi]`, matching the contract of
`std::uniform_int_distribution` for every possible generator state. -/
structure Random where
  stream : Nat → Nat
  pos : Nat

/-- Model of `Random::get(min, max)`: returns the next value in `[lo, hi]`
(when `lo ≤ hi`) and the advanced stream. -/
def Random.get (r : Random) (lo hi : Int) : Int × Random :=
  (lo + Int.ofNat (r.stream r.pos % (hi - lo + 1).toNat), ⟨r.stream, r.pos + 1⟩)

/-- Model of `Program::Ref` (gp.h lines 98-114): a tagged index, negative for
inputs, nonnegative for operation results. -/
structure Ref where
  idx : Int
deriving DecidableEq

/-- Ref::is_input (gp.h line 103). -/
def Ref.is_input (r : Ref) : Bool := r.idx < 0

/-- Ref::is_operation (gp.h line 104). -/
def Ref.is_operation (r : Ref) : Bool := 0 ≤ r.idx

/-- Ref::in_idx (gp.h line 105). -/
def Ref.in_idx (r : Ref) : Nat := (-(r.idx + 1)).toNat

/-- Ref::op_idx (gp.h line 106). -/
def Ref.op_idx (r : Ref) : Nat := r.idx.toNat

/-- Ref::in (gp.h line 108): reference to input slot `idx_in`. -/
def Ref.input (idx_in : Nat) : Ref := ⟨-((idx_in : Int) + 1)⟩

/-- Ref::op (gp.h line 109): reference to the result of operation `idx_in`. -/
def Ref.op (idx_in : Nat) : Ref := ⟨(idx_in : Int)⟩

/-- Ref::nop (gp.h line 110): the distinguished no-operand reference. -/
def Ref.nop : Ref := Ref.input 0

/-- Ref::rnd (gp.h lines 111-113): draws the encoded index uniformly from
`[-in_cnt, op_cnt-1]`, i.e. from the union of all input references and all
operation references strictly below `op_cnt`. -/
def Ref.rnd (rnd_in : Random) (in_cnt op_cnt : Nat) : Ref × Random :=
  let d := rnd_in.get (-(in_cnt : Int)) ((op_cnt : Int) - 1)
  (⟨d.1⟩, d.2)

/-- Model of `Program::Op` (gp.h lines 115-121). -/
structure Op where
  code : Nat
  lhs : Ref
  rhs : Ref
deriving DecidableEq

/-- Model of `Program::Stats` (gp.h lines 122-138). -/
structure Stats where
  weakness : Weakness
  cost : Nat
  born : Nat
deriving DecidableEq

/-- Stats::operator< (gp.h lines 129-137): weakness ascending, then cost
ascending, then younger (larger `born`) first. -/
def Stats.lt (a b : Stats) : Bool :=
  if a.weakness ≠ b.weakness then decide (a.weakness < b.weakness)
  else if a.cost ≠ b.cost then decide (a.cost < b.cost)
  else decide (b.born < a.born)

/-- Model of `OpRepo::Entry` (gp.h lines 67-73). -/
structure Entry where
  name : String
  fn : Value → Value → Value
  cost : Nat

/-- OpRepo::forward_op (gp.h line 66). -/
def forward_op (lhs : Value) (_ : Value) : Value := lhs

/-- Model of `OpRepo` (gp.h lines 63-94) without the fitness hook (the hook is
carried separately, see the file header). -/
structure OpRepo where
  entries : List Entry

/-- The OpRepo constructor (gp.h lines 76-80): starts with the zero-cost
forward operation at code 0. -/
def OpRepo.new : OpRepo := ⟨[⟨("forward"), forward_op, 0⟩]⟩

/-- OpRepo::add (gp.h lines 81-84): appends a cost-1 operation. -/
def OpRepo.add (r : OpRepo) (name : String) (f : Value → Value → Value) : OpRepo :=
  ⟨r.entries ++ [⟨name, f, 1⟩]⟩

/-- OpRepo::name_of (gp.h line 85); the C++ `_list[op]` has no defined result
out of range, modelled as `Option`. -/
def OpRepo.name_of (r : OpRepo) (op : Nat) : Option String :=
  (r.entries.get? op).map (·.name)

/-- OpRepo::cost_of (gp.h line 86), `Option`-valued like `name_of`. -/
def OpRepo.cost_of (r : OpRepo) (op : Nat) : Option Nat :=
  (r.entries.get? op).map (·.cost)

/-- OpRepo::max_op (gp.h line 87): highest valid operation code. -/
def OpRepo.max_op (r : OpRepo) : Nat := r.entries.length - 1

/-- OpRepo::perform (gp.h lines 91-93); out-of-range codes (undefined in the
C++) default to 0, never reached under the code-validity precondition. -/
def OpRepo.perform (r : OpRepo) (op : Nat) (lhs rhs : Value) : Value :=
  match r.entries.get? op with
  | some e => e.fn lhs rhs
  | none => 0

/-! The concrete operation catalog of ponder_nov2017.cpp (lines 20-35, 96-107). -/
/-- The most negative `int` value (`INT_MIN`). -/
def INT_MIN : Int := -(2 ^ 31)

/-- div_ok (ponder_nov2017.cpp lines 21-26): a division `a / b` is legal unless
`b` is zero or it is the single overflowing case `INT_MIN / -1`. -/
def div_ok (a b : Int) : Bool :=
  if a = INT_MIN ∧ b = -1 then false else b ≠ 0

/-- my_add (ponder_nov2017.cpp line 27). -/
def my_add (a b : Int) : Int := a + b

/-- my_sub (ponder_nov2017.cpp line 28). -/
def my_sub (a b : Int) : Int := a - b

/-- my_mul (ponder_nov2017.cpp line 29). -/
def my_mul (a b : Int) : Int := a * b

/-- my_div (ponder_nov2017.cpp line 30): truncated quotient, 0 when illegal. -/
def my_div (a b : Int) : Int := if div_ok a b then a.tdiv b else 0

/-- my_mod (ponder_nov2017.cpp line 31): truncated remainder, 0 when illegal. -/
def my_mod (a b : Int) : Int := if div_ok a b then a.tmod b else 0

/-- Modelled from the spec: `my_pow` (ponder_nov2017.cpp line 32) computes
`pow(a, b)` on `double` and truncates back to `int`; the spec (section 4.1)
says integer exponentiation truncates to an integer result.  Floating-point
rounding for huge magnitudes is out of scope; no claim depends on `pow`. -/
def my_pow (a b : Int) : Int :=
  if b < 0 then
    if a = 1 then 1
    else if a = -1 then (if b % 2 = 0 then 1 else -1)
    else 0
  else a ^ b.toNat

/-- my_and (ponder_nov2017.cpp line 33). -/
def my_and (a b : Int) : Int := Int.land a b

/-- my_or (ponder_nov2017.cpp line 34). -/
def my_or (a b : Int) : Int := Int.lor a b

/-- my_xor (ponder_nov2017.cpp line 35). -/
def my_xor (a b : Int) : Int := Int.xor a b

/-- my_repo (ponder_nov2017.cpp lines 96-107): the concrete catalog; codes are
forward=0, add=1, sub=2, mul=3, div=4, mod=5, pow=6, and=7, or=8, xor=9. -/
def my_repo : OpRepo :=
  ((((((((OpRepo.new.add ("add") my_add).add ("sub") my_sub).add
    ("mul") my_mul).add ("div") my_div).add ("mod") my_mod).add
    ("pow") my_pow).add ("and") my_and).add ("or") my_or).add ("xor") my_xor

/-- Model of `Program`'s data (gp.h lines 97-181): the catalog copy, the
fitness state, the input/output counts, the operation list and the best slot.
The `mt19937`-backed helpers live in the functions below. -/
structure Program where
  repo : OpRepo
  stats : Stats
  in_cnt : Nat
  out_cnt : Nat
  program : List Op
  best_slot : Nat

/-- The default operation used for (never taken) out-of-range list reads. -/
def defaultOp : Op := ⟨0, Ref.nop, Ref.nop⟩

/-- Program::assert_valid (gp.cpp lines 21-31) as a predicate: the reference is
an input below `in_cnt` or an operation strictly below `limit`. -/
def refOk (in_cnt : Nat) (ref : Ref) (limit : Nat) : Prop :=
  (ref.is_input = true → ref.in_idx < in_cnt) ∧
  (ref.is_operation = true → ref.op_idx < limit)

instance (in_cnt : Nat) (ref : Ref) (limit : Nat) : Decidable (refOk in_cnt ref limit) := by
  unfold refOk
  infer_instance

/-- Validity of all operand references: each operation refers, in each operand,
either to an input slot below `in_cnt` or to a strictly earlier operation.
This is the invariant `add_op` asserts at every construction site. -/
def Program.refs_valid (p : Program) : Prop :=
  ∀ i < p.program.length,
    refOk p.in_cnt (p.program.getD i defaultOp).lhs i ∧
    refOk p.in_cnt (p.program.getD i defaultOp).rhs i

instance (p : Program) : Decidable p.refs_valid := by
  unfold Program.refs_valid
  exact Nat.decidableBallLT _ _

/-- Validity of all operation codes: each is within the catalog (the invariant
`add_op` asserts as `code <= max_op`). -/
def Program.codes_valid (p : Program) : Prop :=
  ∀ i < p.program.length, (p.program.getD i defaultOp).code < p.repo.entries.length

instance (p : Program) : Decidable p.codes_valid := by
  unfold Program.codes_valid
  exact Nat.decidableBallLT _ _

/-- Program::num_inputs (gp.h line 175). -/
def Program.num_inputs (p : Program) : Nat := p.in_cnt

/-- Program::num_outputs (gp.h line 176). -/
def Program.num_outputs (p : Program) : Nat := p.out_cnt

/-- Program::num_alternatives (gp.h line 178): hard-pinned to 1 (the commented
out line 177 would be `program_length / out_cnt`). -/
def Program.num_alternatives (_ : Program) : Nat := 1

/-- Program::add_op (gp.cpp lines 33-42): appends the operation and returns a
reference to its position; the assertions are preconditions. -/
def Program.add_op (p : Program) (code : Nat) (lhs rhs : Ref) : Program × Ref :=
  ({ p with program := p.program ++ [⟨code, lhs, rhs⟩] }, Ref.op p.program.length)

/-- Program::add_forward (gp.cpp lines 44-48). -/
def Program.add_forward (p : Program) (ref : Ref) : Program × Ref :=
  p.add_op 0 ref Ref.nop

/-- The anonymous helper `get(sizes, ref)` (gp.cpp lines 15-17): size 1 for an
input, the recorded size for an operation result. -/
def getSize (sizes : List Nat) (ref : Ref) : Nat :=
  if ref.is_input then 1 else sizes.getD ref.op_idx 0

/-- The size recorded for one operation (gp.cpp lines 116-123): a forward
operation copies its child's size, any other operation adds one node plus both
children's sizes. -/
def sizeVal (sizes : List Nat) (op : Op) : Nat :=
  if op.code = 0 then getSize sizes op.lhs
  else 1 + getSize sizes op.lhs + getSize sizes op.rhs

/-- One iteration of the forward size pass: push the new operation's size. -/
def sizeStep (sizes : List Nat) (op : Op) : List Nat :=
  sizes ++ [sizeVal sizes op]

/-- The size table over the first `n` operations (the loop of gp.cpp
lines 115-123 run for `n` iterations). -/
def Program.sizesUpTo (p : Program) (n : Nat) : List Nat :=
  (p.program.take n).foldl sizeStep []

/-- Program::size_of (gp.cpp lines 108-125): structural (non-deduplicated)
expression size. -/
def Program.size_of (p : Program) (ref : Ref) : Nat :=
  if ref.is_input then 1
  else (p.sizesUpTo (ref.op_idx + 1)).getLastD 0

/-! Decimal rendering used by the `i%zu` and `%zu` format directives. -/
/-- A single decimal digit character. -/
def digitChar (n : Nat) : Char :=
  match n with
  | 0 => '0' | 1 => '1' | 2 => '2' | 3 => '3' | 4 => '4'
  | 5 => '5' | 6 => '6' | 7 => '7' | 8 => '8' | _ => '9'

/-- Accumulator-style decimal digit expansion, fuel-indexed so that it is
structurally recursive; fuel `n + 1` always suffices. -/
def natDigitsAux : Nat → Nat → List Char → List Char
  | 0, _, acc => acc
  | fuel + 1, n, acc =>
    if n / 10 = 0 then digitChar (n % 10) :: acc
    else natDigitsAux fuel (n / 10) (digitChar (n % 10) :: acc)

/-- Decimal rendering of a natural number (the `%zu` directive). -/
def natToString (n : Nat) : String := ⟨natDigitsAux (n + 1) n []⟩

/-- Fuel-indexed body of `Program::as_string` (gp.cpp lines 127-146).  The C++
recursion descends to strictly smaller operation indices on valid programs, so
fuel `op_idx + 1` suffices; the fuel-exhausted branch is unreachable then. -/
def asStringFuel (p : Program) : Nat → Ref → String
  | 0, ref =>
    if p.size_of ref > 9000 then
      ("expr(" ++ natToString (p.size_of ref) ++ " nodes)")
    else if ref.is_input then
      ("i" ++ natToString ref.in_idx)
    else
      ("")
  | fuel' + 1, ref =>
    if p.size_of ref > 9000 then
      ("expr(" ++ natToString (p.size_of ref) ++ " nodes)")
    else if ref.is_input then
      ("i" ++ natToString ref.in_idx)
    else
      if (p.program.getD ref.op_idx defaultOp).code = 0 then
        asStringFuel p fuel' (p.program.getD ref.op_idx defaultOp).lhs
      else
        ((p.repo.name_of (p.program.getD ref.op_idx defaultOp).code).getD ("") ++
          "(" ++
          asStringFuel p fuel' (p.program.getD ref.op_idx defaultOp).lhs ++ "," ++
          asStringFuel p fuel' (p.program.getD ref.op_idx defaultOp).rhs ++ ")")

/-- Program::as_string (gp.cpp lines 127-146): the fuel `program.length`
dominates every operation index. -/
def Program.as_string (p : Program) (ref : Ref) : String :=
  asStringFuel p p.program.length ref

/-- The hand-built three-operation program of claim C8 over 3 inputs:
operation 0 is `sub(i2,i0)`, operation 1 is `add(i2,i0)`, operation 2 is
`mul` of those two results (codes per `my_repo`: add=1, sub=2, mul=3). -/
def progC8 : Program :=
  { repo := my_repo, stats := ⟨0, 0, 0⟩, in_cnt := 3, out_cnt := 3,
    program := [⟨2, Ref.input 2, Ref.input 0⟩,
                ⟨1, Ref.input 2, Ref.input 0⟩,
                ⟨3, Ref.op 0, Ref.op 1⟩],
    best_slot := 0 }

/-- Program::rnd_op (gp.h line 149): a uniformly random valid operation code. -/
def Program.rnd_op (p : Program) (rnd : Random) : Nat × Random :=
  let d := rnd.get 0 (p.repo.max_op : Int)
  (d.1.toNat, d.2)

/-- Program::rnd_ref (gp.h line 150). -/
def Program.rnd_ref (p : Program) (rnd : Random) (limit : Nat) : Ref × Random :=
  Ref.rnd rnd p.in_cnt limit

/-- Program::mutate (gp.cpp lines 63-77): pick a position uniformly, pick one
of the three fields uniformly, overwrite it with a fresh random valid value
(operand randomness limited to references strictly before the position). -/
def Program.mutate (p : Program) (rnd : Random) : Program × Random :=
  let d1 := rnd.get 0 ((p.program.length : Int) - 1)
  let mut_idx := d1.1.toNat
  let d2 := d1.2.get 0 2
  let op := p.program.getD mut_idx defaultOp
  if d2.1 = 0 then
    let d3 := p.rnd_op d2.2
    ({ p with program := p.program.set mut_idx { op with code := d3.1 } }, d3.2)
  else if d2.1 = 1 then
    let d3 := p.rnd_ref d2.2 mut_idx
    ({ p with program := p.program.set mut_idx { op with lhs := d3.1 } }, d3.2)
  else
    let d3 := p.rnd_ref d2.2 mut_idx
    ({ p with program := p.program.set mut_idx { op with rhs := d3.1 } }, d3.2)

/-- The all-zero random stream, used to exhibit concrete draws. -/
def rndZero : Random := ⟨fun _ => 0, 0⟩

/-- Frame of one `mutate` call: the stats, counts, catalog, best slot, list
length and every other operation are unchanged, and of the selected operation
at least two of the three fields keep their old values (the remaining field is
overwritten with a freshly drawn value, which may happen to equal the old
one). -/
def MutateFrame (p m : Program) : Prop :=
  m.stats = p.stats ∧ m.in_cnt = p.in_cnt ∧ m.out_cnt = p.out_cnt ∧
  m.repo = p.repo ∧ m.best_slot = p.best_slot ∧
  m.program.length = p.program.length ∧
  ∃ i, i < p.program.length ∧
    (∀ j, j < p.program.length → j ≠ i →
      m.program.getD j defaultOp = p.program.getD j defaultOp) ∧
    (((m.program.getD i defaultOp).lhs = (p.program.getD i defaultOp).lhs ∧
      (m.program.getD i defaultOp).rhs = (p.program.getD i defaultOp).rhs) ∨
     ((m.program.getD i defaultOp).code = (p.program.getD i defaultOp).code ∧
      (m.program.getD i defaultOp).rhs = (p.program.getD i defaultOp).rhs) ∨
     ((m.program.getD i defaultOp).code = (p.program.getD i defaultOp).code ∧
      (m.program.getD i defaultOp).lhs = (p.program.getD i defaultOp).lhs))

/-- A one-operation program whose single operation is the forward of input 0;
under the all-zero stream `mutate` redraws its code with the same value 0. -/
def progC9 : Program :=
  { repo := OpRepo.new, stats := ⟨0, 0, 0⟩, in_cnt := 1, out_cnt := 1,
    program := [⟨0, Ref.input 0, Ref.input 0⟩], best_slot := 0 }

/-! Execution (gp.cpp lines 148-169) and claim C1. -/
/-- The anonymous helper `get(input, values, ref)` (gp.cpp lines 11-13):
resolve a reference against the input vector or the computed values. -/
def getVal (input values : List Value) (ref : Ref) : Value :=
  if ref.is_input then input.getD ref.in_idx 0 else values.getD ref.op_idx 0

/-- The loop of `Program::execute` (gp.cpp lines 154-167), with the three
accumulators `values`, `out` and `result` made explicit.  A finished output
group is recorded as a result alternative only when the values produced so far
already cover the whole program (the `HACK` comment at gp.cpp line 162). -/
def execLoop (p : Program) (input : List Value) :
    List Op → List Value → List Value → List (List Value) →
    List Value × List (List Value)
  | [], values, _, result => (values, result)
  | op :: ops, values, out, result =>
    let value := p.repo.perform op.code
      (getVal input values op.lhs) (getVal input values op.rhs)
    let values' := values ++ [value]
    let out' := out ++ [value]
    if out'.length = p.out_cnt then
      if values'.length = p.program.length then
        execLoop p input ops values' [] (result ++ [out'])
      else
        execLoop p input ops values' [] result
    else
      execLoop p input ops values' out' result

/-- Program::execute (gp.cpp lines 148-169). -/
def Program.execute (p : Program) (input : List Value) : List (List Value) :=
  (execLoop p input p.program [] [] []).2

/-- The full per-operation value trace computed by the execute loop. -/
def Program.computeValues (p : Program) (input : List Value) : List Value :=
  (execLoop p input p.program [] [] []).1

/-! Token counting for claim C5: the rendered string's tokens (operation names
and input tokens) are the maximal runs of characters other than the three
punctuation characters used by the `name(lhs,rhs)` format. -/
/-- The punctuation characters of the rendering format. -/
def isPunct (c : Char) : Bool := c == '(' || c == ')' || c == ','

/-- Count the maximal runs of non-punctuation characters; `inRun` records
whether the previous character belonged to a run. -/
def countRuns : List Char → Bool → Nat
  | [], _ => 0
  | c :: cs, inRun =>
    if isPunct c then countRuns cs false
    else (if inRun then 0 else 1) + countRuns cs true

/-- The number of name/input tokens in a rendered string. -/
def countTokens (s : String) : Nat := countRuns s.data false

/-- A continuation list that does not extend a pending run: empty or starting
with punctuation. -/
def startsOk : List Char → Prop
  | [] => True
  | c :: _ => isPunct c = true

/-- A usable operation name: nonempty and free of the format's punctuation. -/
def GoodName (s : String) : Prop :=
  s.data ≠ [] ∧ ∀ c ∈ s.data, isPunct c = false

instance (s : String) : Decidable (GoodName s) := by
  unfold GoodName
  infer_instance

/-! The Population layer (gp.h lines 16-25 and 183-208, gp.cpp lines 79-106,
171-244). -/
/-- Model of `Params` (gp.h lines 16-25). -/
structure Params where
  in_cnt : Nat
  out_cnt : Nat
  op_cnt : Nat
  pop_cnt : Nat

/-- The Program constructor (gp.h lines 158-161) with `Stats(gen)`
(gp.h line 126: weakness 0, cost 0, born `gen`). -/
def Program.new (repo : OpRepo) (in_cnt out_cnt gen : Nat) : Program :=
  { repo := repo, stats := ⟨0, 0, gen⟩, in_cnt := in_cnt, out_cnt := out_cnt,
    program := [], best_slot := 0 }

/-- The loop of Program::grow (gp.cpp lines 55-60), fuel-indexed; each
iteration appends one operation with a random code and two random references
scoped to strictly earlier positions. -/
def Program.growLoop : Nat → Program → Random → Nat → Program × Random
  | 0, p, rnd, _ => (p, rnd)
  | fuel + 1, p, rnd, op_cnt =>
    if p.program.length < op_cnt then
      let d1 := p.rnd_op rnd
      let d2 := p.rnd_ref d1.2 p.program.length
      let d3 := p.rnd_ref d2.2 p.program.length
      Program.growLoop fuel (p.add_op d1.1 d2.1 d3.1).1 d3.2 op_cnt
    else (p, rnd)

/-- Program::grow (gp.cpp lines 50-61); fuel `op_cnt` suffices because each
iteration below the target appends exactly one operation.  The assertions that
`op_cnt` is a positive multiple of `out_cnt` are preconditions. -/
def Program.grow (p : Program) (rnd : Random) (op_cnt : Nat) : Program × Random :=
  Program.growLoop op_cnt p rnd op_cnt

/-- The worklist loop of Program::get_cost (gp.cpp lines 90-104), fuel-indexed.
The head of `todo` is the top of the C++ stack; an unvisited operation adds its
catalog cost, pushes its left child, pushes its right child only for non-zero
codes, and is marked done.  Total pushes are bounded by
`out_cnt + 2 * program_length`, so the fuel used by `get_cost` covers every
actual execution. -/
def costLoop (p : Program) : Nat → List Ref → List Bool → Nat → Nat
  | 0, _, _, cost => cost
  | _ + 1, [], _, cost => cost
  | fuel + 1, ref :: todo, done, cost =>
    if ref.is_operation then
      if (done.getD ref.op_idx false) = false then
        if (p.program.getD ref.op_idx defaultOp).code > 0 then
          costLoop p fuel
            ((p.program.getD ref.op_idx defaultOp).rhs ::
              (p.program.getD ref.op_idx defaultOp).lhs :: todo)
            (done.set ref.op_idx true)
            (cost + (p.repo.cost_of (p.program.getD ref.op_idx defaultOp).code).getD 0)
        else
          costLoop p fuel
            ((p.program.getD ref.op_idx defaultOp).lhs :: todo)
            (done.set ref.op_idx true)
            (cost + (p.repo.cost_of (p.program.getD ref.op_idx defaultOp).code).getD 0)
      else costLoop p fuel todo done cost
    else costLoop p fuel todo done cost

/-- Program::get_cost (gp.cpp lines 79-106): dedup-by-visited-set cost of the
operations reachable from the slot's `out_cnt` output references.  The initial
stack holds the slot's references with the highest index on top. -/
def Program.get_cost (p : Program) (slot : Nat) : Nat :=
  costLoop p (p.out_cnt + 2 * p.program.length + 1)
    (((List.range p.out_cnt).map (fun i => Ref.op (slot * p.out_cnt + i))).reverse)
    (List.replicate p.program.length false) 0

/-- Program::handle_feedback (gp.cpp lines 171-189).  With `num_alternatives`
pinned to 1 the first branch always runs: the best slot is the last slot and
the stats take the single feedback value, that slot's cost, and the preserved
birth generation.  The other branch (dead code) folds over the remaining
alternatives keeping the `Stats`-least one. -/
def Program.handle_feedback (p : Program) (feedback : List Weakness) : Program :=
  if p.num_alternatives = 1 then
    { p with best_slot := (p.program.length - p.out_cnt) / p.out_cnt,
             stats := ⟨feedback.getD 0 0,
                       p.get_cost ((p.program.length - p.out_cnt) / p.out_cnt),
                       p.stats.born⟩ }
  else
    let start : Stats × Nat := (⟨feedback.getD 0 0, p.get_cost 0, p.stats.born⟩, 0)
    let fold := ((List.range feedback.length).drop 1).foldl
      (fun acc i =>
        if Stats.lt ⟨feedback.getD i 0, p.get_cost i, p.stats.born⟩ acc.1 then
          (⟨feedback.getD i 0, p.get_cost i, p.stats.born⟩, i)
        else acc) start
    { p with best_slot := fold.2, stats := fold.1 }

/-- OpRepo::find_weakness (gp.h lines 88-90) with the hook passed explicitly
(see the file header): evaluate the individual and feed the result back. -/
def findWeakness (hook : Program → List Weakness) (p : Program) : Program :=
  p.handle_feedback (hook p)

/-- Model of `Population` (gp.h lines 183-208); the catalog's fitness hook is
held alongside the catalog (see the file header). -/
structure Population where
  rnd : Random
  gen : Nat
  params : Params
  repo : OpRepo
  hook : Program → List Weakness
  programs : List Program

/-- Program::operator< (gp.h line 168) turned into the weak order used to
state sortedness: `a ≤ b` iff not `b.stats < a.stats`. -/
def Program.le (a b : Program) : Bool := ! Stats.lt b.stats a.stats

/-- std::sort over programs (gp.cpp lines 199 and 243): a sorted permutation
under the Stats order. -/
def sortByStats (l : List Program) : List Program := l.mergeSort Program.le

/-- Non-decreasing from front to back under the Stats order. -/
def SortedByStats (l : List Program) : Prop :=
  l.Pairwise (fun a b => Program.le a b = true)

/-- The loop of Population::grow (gp.cpp lines 194-198), fuel-indexed: append
a freshly grown and evaluated program while below the target size. -/
def Population.growLoop : Nat → Population → Population
  | 0, pop => pop
  | fuel + 1, pop =>
    if pop.programs.length < pop.params.pop_cnt then
      Population.growLoop fuel
        { pop with
            rnd := ((Program.new pop.repo pop.params.in_cnt pop.params.out_cnt
              pop.gen).grow pop.rnd pop.params.op_cnt).2,
            programs := pop.programs ++
              [findWeakness pop.hook
                ((Program.new pop.repo pop.params.in_cnt pop.params.out_cnt
                  pop.gen).grow pop.rnd pop.params.op_cnt).1] }
    else pop

/-- Population::grow (gp.cpp lines 191-200): fill to `pop_cnt`, then sort. -/
def Population.grow (pop : Population) : Population :=
  { Population.growLoop pop.params.pop_cnt pop with
      programs :=
        sortByStats (Population.growLoop pop.params.pop_cnt pop).programs }

/-- The biased index draw of Population::select (gp.cpp lines 213-218): the
minimum of two independent draws in `[0, limit-1]`. -/
def selectIdx (rnd : Random) (limit : Nat) : Nat × Random :=
  let d1 := rnd.get 0 ((limit : Int) - 1)
  let d2 := d1.2.get 0 ((limit : Int) - 1)
  ((min d1.1 d2.1).toNat, d2.2)

/-- Population::select (gp.cpp lines 213-218); the C++ unchecked vector read
is modelled as `Option`, producing nothing exactly when the drawn index is out
of range — in particular always when the population is empty. -/
def Population.select (pop : Population) (limit : Nat) : Option Program × Random :=
  ((pop.programs.get? (selectIdx pop.rnd limit).1), (selectIdx pop.rnd limit).2)

/-- Bound on the extra do-while rounds of Population::mutate (gp.cpp
lines 224-226); the 66%-continuation loop terminates with probability 1 and is
modelled with this explicit bound on rounds. -/
def mutateRounds : Nat := 64

/-- The do-while body of Population::mutate: mutate once, then continue while
the next draw in `[0,99]` is below 66. -/
def mutateLoop : Nat → Program → Random → Program × Random
  | 0, prog, rnd => (prog, rnd)
  | fuel + 1, prog, rnd =>
    if ((prog.mutate rnd).2.get 0 99).1 < 66 then
      mutateLoop fuel (prog.mutate rnd).1 ((prog.mutate rnd).2.get 0 99).2
    else ((prog.mutate rnd).1, ((prog.mutate rnd).2.get 0 99).2)

/-- Population::mutate (gp.cpp lines 220-229): copy, mutate at least once,
repeat with 66% probability, stamp the copy's birth generation. -/
def Population.mutateProg (pop : Population) (a : Program) : Program × Random :=
  ({ (mutateLoop mutateRounds a pop.rnd).1 with
      stats := ⟨(mutateLoop mutateRounds a pop.rnd).1.stats.weakness,
                (mutateLoop mutateRounds a pop.rnd).1.stats.cost,
                pop.gen⟩ },
   (mutateLoop mutateRounds a pop.rnd).2)

/-- The repopulation loop of Population::tick (gp.cpp lines 239-242),
fuel-indexed: while below `pop_cnt`, select a parent among the best
`apex_cnt`, mutate it, evaluate it, append it.  A failing parent lookup
(empty elite) fails the whole tick. -/
def Population.refill : Nat → Nat → Population → Option Population
  | 0, _, pop => some pop
  | fuel + 1, apex_cnt, pop =>
    if pop.programs.length < pop.params.pop_cnt then
      match (pop.select apex_cnt).1 with
      | none => none
      | some parent =>
        Population.refill fuel apex_cnt
          { pop with
              rnd := (Population.mutateProg
                { pop with rnd := (pop.select apex_cnt).2 } parent).2,
              programs := pop.programs ++
                [findWeakness pop.hook
                  (Population.mutateProg
                    { pop with rnd := (pop.select apex_cnt).2 } parent).1] }
    else some pop

/-- Population::tick (gp.cpp lines 231-244): advance the generation, truncate
to the elite count `pop_cnt / 10`, refill with mutated and re-evaluated
children of selected parents, and re-sort the whole population. -/
def Population.tick (pop : Population) : Option Population :=
  match Population.refill pop.params.pop_cnt (pop.params.pop_cnt / 10)
      { pop with gen := pop.gen + 1,
                 programs := pop.programs.take (pop.params.pop_cnt / 10) } with
  | none => none
  | some p' => some { p' with programs := sortByStats p'.programs }

/-- The trivial one-operation program used to build concrete populations. -/
def progW : Program :=
  { repo := OpRepo.new, stats := ⟨0, 0, 0⟩, in_cnt := 1, out_cnt := 1,
    program := [⟨0, Ref.input 0, Ref.input 0⟩], best_slot := 0 }

/-- A concrete population of ten identical programs with a constant fitness
hook. -/
def popW : Population :=
  { rnd := rndZero, gen := 0, params := ⟨1, 1, 1, 10⟩, repo := OpRepo.new,
    hook := fun _ => [0], programs := List.replicate 10 progW }

/-! Theorems: the verification results over the embedding above. -/

/-- Every draw lies in the requested interval when the interval is nonempty. -/
theorem Random.get_mem (r : Random) (lo hi : Int) (h : lo ≤ hi) :
    lo ≤ (r.get lo hi).1 ∧ (r.get lo hi).1 ≤ hi := by
  constructor
  · have : (0 : Int) ≤ Int.ofNat (r.stream r.pos % (hi - lo + 1).toNat) :=
      Int.ofNat_nonneg _
    simp only [Random.get]
    omega
  · have hpos : 0 < (hi - lo + 1).toNat := by omega
    have hmod : r.stream r.pos % (hi - lo + 1).toNat < (hi - lo + 1).toNat :=
      Nat.mod_lt _ hpos
    have : (Int.ofNat (r.stream r.pos % (hi - lo + 1).toNat)) <
        Int.ofNat (hi - lo + 1).toNat := Int.ofNat_lt.mpr hmod
    have htn : (Int.ofNat (hi - lo + 1).toNat) = hi - lo + 1 := by
      have : (0 : Int) ≤ hi - lo + 1 := by omega
      simpa using Int.toNat_of_nonneg this
    simp only [Random.get]
    omega

/-- Randomized references land inside the union of valid input references and
operation references strictly below `limit` whenever there is at least one
input. -/
theorem Ref.rnd_refOk (rnd : Random) (in_cnt limit : Nat) (hin : 0 < in_cnt) :
    refOk in_cnt (Ref.rnd rnd in_cnt limit).1 limit := by
  have hle : (-(in_cnt : Int)) ≤ (limit : Int) - 1 := by omega
  have hmem := Random.get_mem rnd (-(in_cnt : Int)) ((limit : Int) - 1) hle
  unfold Ref.rnd
  set v := (rnd.get (-(in_cnt : Int)) ((limit : Int) - 1)).1 with hv
  constructor
  · intro hinp
    have hneg : v < 0 := by
      simpa [Ref.is_input] using hinp
    have hlo : -(in_cnt : Int) ≤ v := hmem.1
    show (-(v + 1)).toNat < in_cnt
    omega
  · intro hop
    have hnn : 0 ≤ v := by
      simpa [Ref.is_operation] using hop
    have hhi : v ≤ (limit : Int) - 1 := hmem.2
    show v.toNat < limit
    omega

/-- Replacing one operation with one whose operands are valid at its position
preserves validity of the whole operand structure. -/
theorem refs_valid_set (p : Program) (i : Nat) (op' : Op) (hv : p.refs_valid)
    (hi : i < p.program.length)
    (hl : refOk p.in_cnt op'.lhs i) (hr : refOk p.in_cnt op'.rhs i) :
    Program.refs_valid { p with program := p.program.set i op' } := by
  intro j hj
  simp only [List.length_set] at hj
  by_cases hij : i = j
  · subst hij
    have : (p.program.set i op').getD i defaultOp = op' := by
      simp [List.getD_eq_getElem?_getD, List.getElem?_set_self hi]
    rw [this]
    exact ⟨hl, hr⟩
  · have : (p.program.set i op').getD j defaultOp = p.program.getD j defaultOp := by
      simp [List.getD_eq_getElem?_getD, List.getElem?_set_ne hij]
    rw [this]
    exact hv j hj

/-- The randomly drawn mutation position is in range. -/
theorem mutate_idx_lt (p : Program) (rnd : Random) (hlen : 0 < p.program.length) :
    ((rnd.get 0 ((p.program.length : Int) - 1)).1).toNat < p.program.length := by
  have hle : (0 : Int) ≤ (p.program.length : Int) - 1 := by omega
  have hmem := Random.get_mem rnd 0 ((p.program.length : Int) - 1) hle
  omega

/-! Claim C2: mutation preserves the strictly-earlier-reference invariant. -/
/-- C2: for every program whose operands are valid and every random-stream
state, after `mutate` every operation still refers, in each operand, either to
an input index below `in_cnt` or to a strictly earlier operation — never to
itself or a later position.  Requires a nonempty operation list (the position
draw) and at least one input (the reference draw), as every grown program has. -/
theorem mutate_preserves_refs_valid (p : Program) (rnd : Random)
    (hv : p.refs_valid) (hlen : 0 < p.program.length) (hin : 0 < p.in_cnt) :
    ((p.mutate rnd).1).refs_valid := by
  unfold Program.mutate
  have hidx := mutate_idx_lt p rnd hlen
  set mut_idx := ((rnd.get 0 ((p.program.length : Int) - 1)).1).toNat with hmi
  have hop := hv mut_idx hidx
  simp only
  split
  · exact refs_valid_set p mut_idx _ hv hidx hop.1 hop.2
  · split
    · exact refs_valid_set p mut_idx _ hv hidx
        (Ref.rnd_refOk _ p.in_cnt mut_idx hin) hop.2
    · exact refs_valid_set p mut_idx _ hv hidx
        hop.1 (Ref.rnd_refOk _ p.in_cnt mut_idx hin)

/-- Witness for C2: the C8 program is valid, nonempty, has inputs, and stays
valid after a mutation under a concrete stream. -/
theorem mutate_preserves_refs_valid_witness :
    progC8.refs_valid ∧ 0 < progC8.program.length ∧ 0 < progC8.in_cnt ∧
      ((progC8.mutate rndZero).1).refs_valid :=
  ⟨by decide, by decide, by decide,
    mutate_preserves_refs_valid progC8 rndZero (by decide) (by decide) (by decide)⟩

/-- Reading back the position that was just overwritten yields the new
operation. -/
theorem getD_set_self (l : List Op) (i : Nat) (a : Op) (h : i < l.length) :
    (l.set i a).getD i defaultOp = a := by
  simp [List.getD_eq_getElem?_getD, List.getElem?_set_self h]

/-- Positions other than the overwritten one are untouched. -/
theorem getD_set_ne (l : List Op) (i j : Nat) (a : Op) (h : i ≠ j) :
    (l.set i a).getD j defaultOp = l.getD j defaultOp := by
  simp [List.getD_eq_getElem?_getD, List.getElem?_set_ne h]

/-! Claims C8 and C9. -/
/-- C8 counterexample: the hand-built `mul(sub(i2,i0),add(i2,i0))` program has
structural size 7 (mul contributes 1 + 3 + 3), not 5, so the claim as stated is
false at this explicit program. -/
theorem handcrafted_mul_claim_false :
    ¬ (progC8.as_string (Ref.op 2) = ("mul(sub(i2,i0),add(i2,i0))") ∧
       progC8.size_of (Ref.op 2) = 5) := by decide

/-- C8 amended: the rendered string of the third operation is exactly
`mul(sub(i2,i0),add(i2,i0))` and its structural size is 7. -/
theorem handcrafted_mul_string_and_size :
    progC8.as_string (Ref.op 2) = ("mul(sub(i2,i0),add(i2,i0))") ∧
    progC8.size_of (Ref.op 2) = 7 := by decide

/-- C9 amended: `mutate` overwrites exactly one of the three fields of exactly
one operation with a freshly drawn value (which may coincide with the old
value); the list length, every other operation, the two unselected fields, the
stored Stats, the input count and the output count are all unchanged. -/
theorem mutate_frame (p : Program) (rnd : Random) (hlen : 0 < p.program.length) :
    MutateFrame p ((p.mutate rnd).1) := by
  unfold Program.mutate
  have hidx := mutate_idx_lt p rnd hlen
  set mut_idx := ((rnd.get 0 ((p.program.length : Int) - 1)).1).toNat with hmi
  simp only
  split
  · refine ⟨rfl, rfl, rfl, rfl, rfl, by simp, mut_idx, hidx, ?_, ?_⟩
    · intro j hj hne
      exact getD_set_ne _ _ _ _ (fun h => hne h.symm)
    · exact Or.inl (by rw [getD_set_self _ _ _ hidx]; exact ⟨rfl, rfl⟩)
  · split
    · refine ⟨rfl, rfl, rfl, rfl, rfl, by simp, mut_idx, hidx, ?_, ?_⟩
      · intro j hj hne
        exact getD_set_ne _ _ _ _ (fun h => hne h.symm)
      · exact Or.inr (Or.inl (by rw [getD_set_self _ _ _ hidx]; exact ⟨rfl, rfl⟩))
    · refine ⟨rfl, rfl, rfl, rfl, rfl, by simp, mut_idx, hidx, ?_, ?_⟩
      · intro j hj hne
        exact getD_set_ne _ _ _ _ (fun h => hne h.symm)
      · exact Or.inr (Or.inr (by rw [getD_set_self _ _ _ hidx]; exact ⟨rfl, rfl⟩))

/-- Witness for the mutation frame at a concrete program and stream. -/
theorem mutate_frame_witness :
    0 < progC8.program.length ∧ MutateFrame progC8 ((progC8.mutate rndZero).1) :=
  ⟨by decide, mutate_frame progC8 rndZero (by decide)⟩

/-- C9 counterexample: under the all-zero stream the mutation selects the code
field and redraws its old value, so not a single field changes — refuting
"changes exactly one of the three fields". -/
theorem mutate_can_change_nothing :
    ((progC9.mutate rndZero).1).program = progC9.program := by decide

/-- Invariant-carrying specification of the execute loop: starting from a
partial trace whose pending group `out` is exactly the trailing remainder of
the values (a whole number of groups having been completed before it), the
loop ends with the full trace and appends exactly one result, the final group
of `out_cnt` values. -/
theorem execLoop_spec (p : Program) (input : List Value)
    (hoc : 0 < p.out_cnt) (hdvd : p.out_cnt ∣ p.program.length) :
    ∀ ops, ops ≠ [] → ∀ values out result,
      values.length + ops.length = p.program.length →
      out.length < p.out_cnt →
      p.out_cnt ∣ (values.length - out.length) →
      out = values.drop (values.length - out.length) →
      (execLoop p input ops values out result).1.length = p.program.length ∧
      (execLoop p input ops values out result).2
        = result ++ [(execLoop p input ops values out result).1.drop
            (p.program.length - p.out_cnt)] := by
  intro ops
  induction ops with
  | nil => intro h; exact absurd rfl h
  | cons op ops' ih =>
    intro _ values out result hlen hout_lt hsub hout
    simp only [List.length_cons] at hlen
    have hle : out.length ≤ values.length := by
      have := congrArg List.length hout
      rw [List.length_drop] at this
      omega
    simp only [execLoop, List.length_append, List.length_cons, List.length_nil,
      Nat.zero_add]
    by_cases hnil : ops' = []
    · subst hnil
      have htot : values.length + 1 = p.program.length := by
        simpa using hlen
      have hdiffeq : p.program.length - (values.length - out.length)
          = out.length + 1 := by omega
      have hdiff : p.out_cnt ∣ (out.length + 1) :=
        hdiffeq ▸ Nat.dvd_sub' hdvd hsub
      have hge : p.out_cnt ≤ out.length + 1 := Nat.le_of_dvd (Nat.succ_pos _) hdiff
      have hfull : out.length + 1 = p.out_cnt := by omega
      rw [if_pos hfull, if_pos (by omega)]
      simp only [execLoop]
      refine ⟨by simp; omega, ?_⟩
      have hidx : p.program.length - p.out_cnt = values.length - out.length := by
        omega
      have hdrop : ∀ (v : Value),
          (values ++ [v]).drop (p.program.length - p.out_cnt)
            = values.drop (values.length - out.length) ++ [v] := by
        intro v
        rw [hidx, List.drop_append_of_le_length (by omega)]
      rw [hdrop, ← hout]
    · have hops : 0 < ops'.length := List.length_pos.mpr hnil
      have hlt : values.length + 1 < p.program.length := by omega
      by_cases hfull : out.length + 1 = p.out_cnt
      · rw [if_pos hfull, if_neg (by omega)]
        refine ih hnil (values ++ _) [] result ?_ hoc ?_ ?_
        · simp
          omega
        · simp only [List.length_append, List.length_cons, List.length_nil,
            Nat.zero_add, Nat.sub_zero]
          rw [show values.length + 1
              = (values.length - out.length) + (out.length + 1) from by omega]
          exact Nat.dvd_add hsub (hfull ▸ Nat.dvd_refl _)
        · simp
      · rw [if_neg hfull]
        refine ih hnil (values ++ _) (out ++ _) result ?_ ?_ ?_ ?_
        · simp
          omega
        · simp only [List.length_append, List.length_cons, List.length_nil,
            Nat.zero_add]
          omega
        · simp only [List.length_append, List.length_cons, List.length_nil,
            Nat.zero_add]
          rw [show (values.length + 1) - (out.length + 1)
              = values.length - out.length from by omega]
          exact hsub
        · simp only [List.length_append, List.length_cons, List.length_nil,
            Nat.zero_add]
          rw [show (values.length + 1) - (out.length + 1)
              = values.length - out.length from by omega]
          rw [List.drop_append_of_le_length (by omega), ← hout]

/-- C1: for every program whose operation-list length is a positive multiple of
`out_cnt` and every input vector of length `in_cnt`, `execute` returns exactly
one output vector — the values of the final group of `out_cnt` operations —
and `num_alternatives` returns 1 (not `program_length / out_cnt`). -/
theorem execute_returns_only_last_slot (p : Program) (input : List Value)
    (hoc : 0 < p.out_cnt) (hdvd : p.out_cnt ∣ p.program.length)
    (hlen : 0 < p.program.length) (_hin : input.length = p.in_cnt) :
    p.execute input
      = [(p.computeValues input).drop (p.program.length - p.out_cnt)] ∧
    p.num_alternatives = 1 := by
  constructor
  · have hne : p.program ≠ [] := by
      intro h
      rw [h] at hlen
      simp at hlen
    have := execLoop_spec p input hoc hdvd p.program hne [] [] []
      (by simp) hoc (by simp) (by simp)
    simpa [Program.execute, Program.computeValues] using this.2
  · rfl

/-- Witness for C1: the C8 program has 3 operations over 3 outputs; its single
result alternative is the final (only) group. -/
theorem execute_returns_only_last_slot_witness :
    0 < progC8.out_cnt ∧ progC8.out_cnt ∣ progC8.program.length ∧
    0 < progC8.program.length ∧ ([1, 2, 4] : List Value).length = progC8.in_cnt ∧
    (progC8.execute [1, 2, 4]
        = [(progC8.computeValues [1, 2, 4]).drop
            (progC8.program.length - progC8.out_cnt)] ∧
      progC8.num_alternatives = 1) :=
  ⟨by decide, by decide, by decide, by decide,
    execute_returns_only_last_slot progC8 [1, 2, 4]
      (by decide) (by decide) (by decide) (by decide)⟩

/-! Claim C3: the Stats total order. -/
/-- C3: the Stats comparison used for all population ranking holds exactly when
weakness is strictly smaller, or weaknesses tie and cost is strictly smaller,
or both tie and the birth generation is strictly larger (younger preferred). -/
theorem stats_lt_characterization (a b : Stats) :
    Stats.lt a b = true ↔
      (a.weakness < b.weakness ∨
        (a.weakness = b.weakness ∧ a.cost < b.cost) ∨
        (a.weakness = b.weakness ∧ a.cost = b.cost ∧ a.born > b.born)) := by
  unfold Stats.lt
  by_cases hw : a.weakness = b.weakness
  · by_cases hc : a.cost = b.cost
    · simp [hw, hc, GT.gt, lt_irrefl]
    · simp [hw, hc, lt_irrefl]
  · have hnl : ¬ (a.weakness = b.weakness) := hw
    simp only [hnl, if_true, ne_eq, not_false_eq_true, if_pos, decide_eq_true_eq]
    constructor
    · intro h
      exact Or.inl h
    · rintro (h | ⟨h1, _⟩ | ⟨h1, _⟩)
      · exact h
      · exact h1.elim
      · exact h1.elim

/-! Claim C6: division and modulo never fail and fall back to zero. -/
/-- C6: for the catalog's division and modulo operations (`div` = code 4,
`mod` = code 5), `perform` returns 0 exactly when the right operand is 0 or the
pair is `(INT_MIN, -1)`, and otherwise the truncated quotient (resp. remainder);
being a total function, it never fails for any operand pair. -/
theorem perform_div_mod_total (a b : Int) :
    my_repo.perform 4 a b =
      (if b = 0 ∨ (a = INT_MIN ∧ b = -1) then 0 else a.tdiv b) ∧
    my_repo.perform 5 a b =
      (if b = 0 ∨ (a = INT_MIN ∧ b = -1) then 0 else a.tmod b) := by
  have h4 : my_repo.perform 4 a b = my_div a b := rfl
  have h5 : my_repo.perform 5 a b = my_mod a b := rfl
  rw [h4, h5]
  unfold my_div my_mod div_ok
  by_cases hov : a = INT_MIN ∧ b = -1
  · simp [hov]
  · by_cases hz : b = 0
    · simp [hov, hz]
    · simp [hov, hz]

/-! Claim C7: out-of-range catalog lookups do not produce a value. -/
/-- C7: for every operation code strictly greater than `max_op()`, both
`name_of` and `cost_of` fail (return no value) rather than returning one. -/
theorem lookup_out_of_range_fails (r : OpRepo) (code : Nat)
    (hne : 0 < r.entries.length) (hgt : r.max_op < code) :
    r.name_of code = none ∧ r.cost_of code = none := by
  have hlen : r.entries.length ≤ code := by
    unfold OpRepo.max_op at hgt
    omega
  constructor
  · unfold OpRepo.name_of
    rw [List.get?_eq_none.mpr hlen]
    rfl
  · unfold OpRepo.cost_of
    rw [List.get?_eq_none.mpr hlen]
    rfl

/-- Witness for C7 at the concrete catalog: code 10 is just beyond `max_op = 9`
and both lookups return nothing. -/
theorem lookup_out_of_range_fails_witness :
    my_repo.name_of 10 = none ∧ my_repo.cost_of 10 = none :=
  lookup_out_of_range_fails my_repo 10 (by decide) (by decide)

/-- Decimal digit characters are never punctuation. -/
theorem digitChar_not_punct (k : Nat) : isPunct (digitChar k) = false := by
  unfold digitChar
  rcases k with _ | _ | _ | _ | _ | _ | _ | _ | _ | k <;> rfl

/-- Every character the digit expansion produces is a digit or comes from the
accumulator. -/
theorem natDigitsAux_not_punct :
    ∀ fuel n acc, (∀ c ∈ acc, isPunct c = false) →
      ∀ c ∈ natDigitsAux fuel n acc, isPunct c = false := by
  intro fuel
  induction fuel with
  | zero => intro n acc hacc c hc; exact hacc c hc
  | succ fuel ih =>
    intro n acc hacc c hc
    unfold natDigitsAux at hc
    split at hc
    · rcases List.mem_cons.mp hc with h | h
      · rw [h]; exact digitChar_not_punct _
      · exact hacc c h
    · refine ih (n / 10) _ ?_ c hc
      intro d hd
      rcases List.mem_cons.mp hd with h | h
      · rw [h]; exact digitChar_not_punct _
      · exact hacc d h

/-- The digit expansion is never empty when given fuel or a nonempty
accumulator. -/
theorem natDigitsAux_ne_nil :
    ∀ fuel n acc, fuel ≠ 0 ∨ acc ≠ [] → natDigitsAux fuel n acc ≠ [] := by
  intro fuel
  induction fuel with
  | zero =>
    intro n acc h
    rcases h with h | h
    · exact absurd rfl h
    · exact h
  | succ fuel ih =>
    intro n acc _
    unfold natDigitsAux
    split
    · exact List.cons_ne_nil _ _
    · exact ih (n / 10) _ (Or.inr (List.cons_ne_nil _ _))

/-- Decimal renderings are good tokens. -/
theorem natToString_good (n : Nat) : GoodName (natToString n) := by
  constructor
  · exact natDigitsAux_ne_nil (n + 1) n [] (Or.inl (Nat.succ_ne_zero n))
  · exact natDigitsAux_not_punct (n + 1) n [] (by intro c hc; cases hc)

/-- A leading punctuation character closes any pending run. -/
theorem countRuns_punct_cons (c : Char) (t : List Char) (st : Bool)
    (h : isPunct c = true) : countRuns (c :: t) st = countRuns t false := by
  simp [countRuns, h]

/-- With a pending run, a block of non-punctuation characters is absorbed into
it. -/
theorem countRuns_absorb :
    ∀ a, (∀ c ∈ a, isPunct c = false) →
      ∀ rest, countRuns (a ++ rest) true = countRuns rest true := by
  intro a
  induction a with
  | nil => intro _ rest; rfl
  | cons x a ih =>
    intro h rest
    have hx : isPunct x = false := h x (List.mem_cons_self _ _)
    show countRuns (x :: (a ++ rest)) true = countRuns rest true
    simp only [countRuns, hx, Bool.false_eq_true, if_false, if_true,
      Nat.zero_add]
    exact ih (fun c hc => h c (List.mem_cons_of_mem _ hc)) rest

/-- A run-neutral continuation counts the same whether or not a run is
pending. -/
theorem countRuns_startsOk (rest : List Char) (h : startsOk rest) :
    countRuns rest true = countRuns rest false := by
  cases rest with
  | nil => rfl
  | cons c t =>
    have hc : isPunct c = true := h
    rw [countRuns_punct_cons c t true hc, countRuns_punct_cons c t false hc]

/-- A nonempty non-punctuation block starting from a closed run contributes
exactly one token before a run-neutral continuation. -/
theorem countRuns_token (a : List Char) (hne : a ≠ [])
    (hgood : ∀ c ∈ a, isPunct c = false) (rest : List Char) (hrest : startsOk rest) :
    countRuns (a ++ rest) false = 1 + countRuns rest false := by
  cases a with
  | nil => exact absurd rfl hne
  | cons x a =>
    have hx : isPunct x = false := hgood x (List.mem_cons_self _ _)
    show countRuns (x :: (a ++ rest)) false = 1 + countRuns rest false
    simp only [countRuns, hx, Bool.false_eq_true, if_false]
    rw [countRuns_absorb a (fun c hc => hgood c (List.mem_cons_of_mem _ hc)) rest]
    rw [countRuns_startsOk rest hrest]

/-! Structure of the forward size pass (gp.cpp lines 108-125). -/
/-- An operation reference is never an input reference. -/
theorem Ref.op_not_input (i : Nat) : (Ref.op i).is_input = false := by
  simp only [Ref.op, Ref.is_input, decide_eq_false_iff_not, Int.not_lt]
  exact Int.natCast_nonneg i

/-- The operation index encoded by `Ref.op`. -/
theorem Ref.op_idx_op (i : Nat) : (Ref.op i).op_idx = i := by
  simp [Ref.op, Ref.op_idx]

/-- A reference that is not an input is an operation reference. -/
theorem Ref.operation_of_not_input (r : Ref) (h : ¬ r.is_input = true) :
    r.is_operation = true := by
  simp only [Ref.is_input, decide_eq_true_eq] at h
  simp only [Ref.is_operation, decide_eq_true_eq]
  omega

/-- A reference that is not an input has `is_input = false`. -/
theorem Ref.input_false_of_not (r : Ref) (h : ¬ r.is_input = true) :
    r.is_input = false := by
  cases hb : r.is_input
  · rfl
  · exact absurd hb h

/-- Unfolding one step of the size table. -/
theorem sizesUpTo_succ (p : Program) (n : Nat) (h : n < p.program.length) :
    p.sizesUpTo (n + 1) = sizeStep (p.sizesUpTo n) (p.program.getD n defaultOp) := by
  unfold Program.sizesUpTo
  rw [List.take_succ]
  rw [List.foldl_append]
  have hsome : p.program[n]? = some (p.program.getD n defaultOp) := by
    rw [List.getElem?_eq_getElem h]
    simp [List.getD_eq_getElem?_getD, List.getElem?_eq_getElem h]
  rw [hsome]
  rfl

/-- The size table over the first `n` operations has `n` entries. -/
theorem sizesUpTo_length (p : Program) :
    ∀ n, n ≤ p.program.length → (p.sizesUpTo n).length = n := by
  intro n
  induction n with
  | zero => intro _; rfl
  | succ n ih =>
    intro h
    rw [sizesUpTo_succ p n (by omega)]
    simp only [sizeStep, List.length_append, List.length_cons, List.length_nil]
    rw [ih (by omega)]

/-- Entries of the size table are stable under growing the table. -/
theorem sizesUpTo_getD_stable (p : Program) :
    ∀ m n i, i < n → n ≤ m → m ≤ p.program.length →
      (p.sizesUpTo m).getD i 0 = (p.sizesUpTo n).getD i 0 := by
  intro m
  induction m with
  | zero => intro n i h1 h2 _; omega
  | succ m ih =>
    intro n i h1 h2 h3
    by_cases hnm : n = m + 1
    · rw [hnm]
    · have hle : n ≤ m := by omega
      rw [sizesUpTo_succ p m (by omega)]
      simp only [sizeStep]
      rw [List.getD_eq_getElem?_getD,
        List.getElem?_append_left (by rw [sizesUpTo_length p m (by omega)]; omega),
        ← List.getD_eq_getElem?_getD]
      exact ih n i h1 hle (by omega)

/-- Reading an extended table exactly at the end of its old part. -/
theorem getD_concat_at (s : List Nat) (v : Nat) (n : Nat) (h : s.length = n) :
    (s ++ [v]).getD n 0 = v := by
  subst h
  rw [List.getD_eq_getElem?_getD, List.getElem?_append_right (Nat.le_refl _)]
  simp

/-- The size of an input reference is 1 (gp.cpp lines 112-114). -/
theorem size_of_input (p : Program) (r : Ref) (h : r.is_input = true) :
    p.size_of r = 1 := by
  simp [Program.size_of, h]

/-- The size of a non-input reference only depends on its operation index. -/
theorem size_of_noninput (p : Program) (r : Ref) (h : r.is_input = false) :
    p.size_of r = (p.sizesUpTo (r.op_idx + 1)).getLastD 0 := by
  simp [Program.size_of, h]

/-- The size of an operation reference is the recorded `sizeVal` of the
operation at that position. -/
theorem size_of_op (p : Program) (i : Nat) (h : i < p.program.length) :
    p.size_of (Ref.op i) = sizeVal (p.sizesUpTo i) (p.program.getD i defaultOp) := by
  rw [size_of_noninput p (Ref.op i) (Ref.op_not_input i), Ref.op_idx_op,
    sizesUpTo_succ p i h]
  simp only [sizeStep]
  exact List.getLastD_concat _ _ _

/-- Inside the size pass, looking a reference up in the table agrees with the
full `size_of` whenever the reference points strictly before the table end. -/
theorem getSize_eq (p : Program) (i : Nat) (hi : i ≤ p.program.length) (r : Ref)
    (hr : r.is_operation = true → r.op_idx < i) :
    getSize (p.sizesUpTo i) r = p.size_of r := by
  by_cases hin : r.is_input = true
  · simp [getSize, hin, size_of_input p r hin]
  · have hop := Ref.operation_of_not_input r hin
    have hlt : r.op_idx < i := hr hop
    have hin' : r.is_input = false := Ref.input_false_of_not r hin
    rw [size_of_noninput p r hin']
    simp only [getSize, hin', Bool.false_eq_true, if_false]
    rw [sizesUpTo_getD_stable p i (r.op_idx + 1) r.op_idx (by omega) (by omega) hi]
    rw [sizesUpTo_succ p r.op_idx (by omega)]
    simp only [sizeStep]
    rw [List.getLastD_concat]
    exact getD_concat_at _ _ _ (sizesUpTo_length p _ (by omega))

/-- Recursive characterization of `size_of` on valid programs: forward copies
the child size, other operations add one node plus both children. -/
theorem size_of_op_unfold (p : Program) (hv : p.refs_valid) (i : Nat)
    (hi : i < p.program.length) :
    p.size_of (Ref.op i)
      = (if (p.program.getD i defaultOp).code = 0
         then p.size_of (p.program.getD i defaultOp).lhs
         else 1 + p.size_of (p.program.getD i defaultOp).lhs
                + p.size_of (p.program.getD i defaultOp).rhs) := by
  rw [size_of_op p i hi]
  have hre := hv i hi
  unfold sizeVal
  by_cases h0 : (p.program.getD i defaultOp).code = 0
  · rw [if_pos h0, if_pos h0]
    exact getSize_eq p i (by omega) _ hre.1.2
  · rw [if_neg h0, if_neg h0]
    rw [getSize_eq p i (by omega) _ hre.1.2, getSize_eq p i (by omega) _ hre.2.2]

/-- Every operation of a valid program has size at least 1. -/
theorem one_le_size_of (p : Program) (hv : p.refs_valid) :
    ∀ i, i < p.program.length → 1 ≤ p.size_of (Ref.op i) := by
  intro i
  induction i using Nat.strong_induction_on with
  | _ i ih =>
    intro hi
    rw [size_of_op_unfold p hv i hi]
    have hre := hv i hi
    by_cases h0 : (p.program.getD i defaultOp).code = 0
    · rw [if_pos h0]
      set r := (p.program.getD i defaultOp).lhs with hr
      by_cases hin : r.is_input = true
      · rw [size_of_input p r hin]
      · have hop := Ref.operation_of_not_input r hin
        have hlt : r.op_idx < i := hre.1.2 hop
        have hin' : r.is_input = false := Ref.input_false_of_not r hin
        rw [size_of_noninput p r hin']
        have hrec := ih r.op_idx hlt (by omega)
        rw [size_of_noninput p (Ref.op r.op_idx) (Ref.op_not_input _),
          Ref.op_idx_op] at hrec
        exact hrec
    · rw [if_neg h0]
      omega

/-! The token-count correspondence for `as_string` (claim C5). -/
/-- Rendering an input reference produces exactly one token. -/
theorem asStringFuel_tokens_input (p : Program) (fuel : Nat) (ref : Ref)
    (hin : ref.is_input = true)
    (rest : List Char) (hrest : startsOk rest) :
    countRuns ((asStringFuel p fuel ref).data ++ rest) false
      = p.size_of ref + countRuns rest false := by
  have hs1 : p.size_of ref = 1 := size_of_input p ref hin
  have hren : asStringFuel p fuel ref = ("i" ++ natToString ref.in_idx) := by
    cases fuel with
    | zero =>
      unfold asStringFuel
      rw [if_neg (by omega), if_pos hin]
    | succ fuel =>
      unfold asStringFuel
      rw [if_neg (by omega), if_pos hin]
  rw [hren]
  rw [String.data_append]
  have hi_data : ("i" : String).data = ['i'] := rfl
  rw [hi_data]
  rw [List.singleton_append, hs1]
  have hgood := natToString_good ref.in_idx
  rw [List.cons_append]
  exact countRuns_token ('i' :: (natToString ref.in_idx).data)
    (List.cons_ne_nil _ _)
    (by
      intro c hc
      rcases List.mem_cons.mp hc with h | h
      · rw [h]; rfl
      · exact hgood.2 c h)
    rest hrest

/-- Rendering a reference with enough fuel produces exactly `size_of` tokens
before a run-neutral continuation. -/
theorem asStringFuel_tokens (p : Program) (hv : p.refs_valid) (hc : p.codes_valid)
    (hnames : ∀ e ∈ p.repo.entries, GoodName e.name) :
    ∀ fuel ref,
      (ref.is_operation = true → ref.op_idx < fuel ∧ ref.op_idx < p.program.length) →
      p.size_of ref ≤ 9000 →
      ∀ rest, startsOk rest →
        countRuns ((asStringFuel p fuel ref).data ++ rest) false
          = p.size_of ref + countRuns rest false := by
  intro fuel
  induction fuel with
  | zero =>
    intro ref href hsize rest hrest
    by_cases hin : ref.is_input = true
    · exact asStringFuel_tokens_input p 0 ref hin rest hrest
    · have hop := Ref.operation_of_not_input ref hin
      have := (href hop).1
      omega
  | succ fuel ih =>
    intro ref href hsize rest hrest
    by_cases hin : ref.is_input = true
    · exact asStringFuel_tokens_input p (fuel + 1) ref hin rest hrest
    · have hop := Ref.operation_of_not_input ref hin
      obtain ⟨hfu, hlen⟩ := href hop
      have hin' : ref.is_input = false := Ref.input_false_of_not ref hin
      have hre := hv ref.op_idx hlen
      have hsz := size_of_op_unfold p hv ref.op_idx hlen
      have hsref : p.size_of ref = p.size_of (Ref.op ref.op_idx) := by
        rw [size_of_noninput p ref hin',
          size_of_noninput p (Ref.op _) (Ref.op_not_input _), Ref.op_idx_op]
      unfold asStringFuel
      rw [if_neg (by omega), if_neg (by simp [hin'])]
      by_cases h0 : (p.program.getD ref.op_idx defaultOp).code = 0
      · rw [if_pos h0]
        have hslhs : p.size_of (p.program.getD ref.op_idx defaultOp).lhs
            = p.size_of ref := by
          rw [hsref, hsz, if_pos h0]
        rw [ih (p.program.getD ref.op_idx defaultOp).lhs
          (by
            intro hlop
            have := hre.1.2 hlop
            omega)
          (by omega) rest hrest]
        rw [hslhs]
      · rw [if_neg h0]
        have hcode : (p.program.getD ref.op_idx defaultOp).code
            < p.repo.entries.length := hc ref.op_idx hlen
        have hname_some : p.repo.entries.get?
              (p.program.getD ref.op_idx defaultOp).code
            = some (p.repo.entries.get ⟨_, hcode⟩) := List.get?_eq_get hcode
        have hnm : (p.repo.name_of (p.program.getD ref.op_idx defaultOp).code).getD
              ("")
            = (p.repo.entries.get ⟨_, hcode⟩).name := by
          unfold OpRepo.name_of
          rw [hname_some]
          rfl
        have hgood : GoodName (p.repo.entries.get ⟨_, hcode⟩).name :=
          hnames _ (List.get_mem _ _ _)
        have hseq : p.size_of ref
            = 1 + p.size_of (p.program.getD ref.op_idx defaultOp).lhs
                + p.size_of (p.program.getD ref.op_idx defaultOp).rhs := by
          rw [hsref, hsz, if_neg h0]
        have hihl := ih (p.program.getD ref.op_idx defaultOp).lhs
          (by
            intro hlop
            have := hre.1.2 hlop
            exact ⟨by omega, by omega⟩)
          (by omega)
        have hihr := ih (p.program.getD ref.op_idx defaultOp).rhs
          (by
            intro hrop
            have := hre.2.2 hrop
            exact ⟨by omega, by omega⟩)
          (by omega)
        rw [hnm]
        simp only [String.data_append]
        simp only [List.append_assoc, List.singleton_append, List.cons_append,
          List.nil_append]
        set s1 := (asStringFuel p fuel (p.program.getD ref.op_idx defaultOp).lhs).data
          with hs1
        set s2 := (asStringFuel p fuel (p.program.getD ref.op_idx defaultOp).rhs).data
          with hs2
        rw [countRuns_token _ hgood.1 hgood.2
          ('(' :: (s1 ++ (',' :: (s2 ++ ')' :: rest)))) (by rfl)]
        rw [countRuns_punct_cons '(' (s1 ++ (',' :: (s2 ++ ')' :: rest))) false
          (by rfl)]
        rw [hihl (',' :: (s2 ++ ')' :: rest)) (by rfl)]
        rw [countRuns_punct_cons ',' (s2 ++ ')' :: rest) false (by rfl)]
        rw [hihr (')' :: rest) (by rfl)]
        rw [countRuns_punct_cons ')' rest false (by rfl)]
        omega

/-- C5: for every valid reference whose structural size is at most 9000, the
number of tokens (operation names and input tokens) in the rendered string
`as_string` equals `size_of`. -/
theorem as_string_token_count (p : Program) (ref : Ref)
    (hv : p.refs_valid) (hc : p.codes_valid)
    (hnames : ∀ e ∈ p.repo.entries, GoodName e.name)
    (href : refOk p.in_cnt ref p.program.length)
    (hsize : p.size_of ref ≤ 9000) :
    countTokens (p.as_string ref) = p.size_of ref := by
  unfold countTokens Program.as_string
  have hmain := asStringFuel_tokens p hv hc hnames p.program.length ref
    (fun h => ⟨href.2 h, href.2 h⟩) hsize [] trivial
  simpa using hmain

/-- Witness for C5 at the hand-built `mul(sub,add)` program: its rendered
string has 7 tokens, matching `size_of`. -/
theorem as_string_token_count_witness :
    progC8.refs_valid ∧ progC8.codes_valid ∧
      (∀ e ∈ progC8.repo.entries, GoodName e.name) ∧
      refOk progC8.in_cnt (Ref.op 2) progC8.program.length ∧
      progC8.size_of (Ref.op 2) ≤ 9000 ∧
      countTokens (progC8.as_string (Ref.op 2)) = progC8.size_of (Ref.op 2) :=
  ⟨by decide, by decide, by decide, by decide, by decide,
    as_string_token_count progC8 (Ref.op 2) (by decide) (by decide) (by decide)
      (by decide) (by decide)⟩

/-! Order-theoretic facts about the Stats comparison, feeding the sortedness
results. -/
/-- Characterization of `Stats.lt` as a lexicographic strict order. -/
theorem Stats.lt_spec (a b : Stats) :
    Stats.lt a b = true ↔
      (a.weakness < b.weakness ∨
        (a.weakness = b.weakness ∧ a.cost < b.cost) ∨
        (a.weakness = b.weakness ∧ a.cost = b.cost ∧ b.born < a.born)) := by
  unfold Stats.lt
  by_cases hw : a.weakness = b.weakness
  · by_cases hc : a.cost = b.cost
    · simp [hw, hc, lt_irrefl]
    · simp [hw, hc, lt_irrefl]
  · have hnl : ¬ (a.weakness = b.weakness) := hw
    simp only [hnl, ne_eq, not_false_eq_true, if_pos, decide_eq_true_eq]
    constructor
    · intro h
      exact Or.inl h
    · rintro (h | ⟨h1, _⟩ | ⟨h1, _⟩)
      · exact h
      · exact h1.elim
      · exact h1.elim

/-- The Stats order is asymmetric. -/
theorem Stats.lt_asymm (a b : Stats)
    (h1 : Stats.lt a b = true) (h2 : Stats.lt b a = true) : False := by
  rw [Stats.lt_spec] at h1 h2
  rcases h1 with h | ⟨he, h⟩ | ⟨he, hc, h⟩ <;>
    rcases h2 with g | ⟨ge, g⟩ | ⟨ge, gc, g⟩ <;>
    first
      | omega
      | linarith

/-- The Stats order is transitive. -/
theorem Stats.lt_trans (a b c : Stats)
    (h1 : Stats.lt a b = true) (h2 : Stats.lt b c = true) :
    Stats.lt a c = true := by
  rw [Stats.lt_spec] at h1 h2 ⊢
  rcases h1 with h | ⟨he, h⟩ | ⟨he, hc, h⟩ <;>
    rcases h2 with g | ⟨ge, g⟩ | ⟨ge, gc, g⟩
  · exact Or.inl (by linarith)
  · exact Or.inl (by linarith)
  · exact Or.inl (by linarith)
  · exact Or.inl (by linarith)
  · exact Or.inr (Or.inl ⟨he.trans ge, by omega⟩)
  · exact Or.inr (Or.inl ⟨he.trans ge, by omega⟩)
  · exact Or.inl (by linarith)
  · exact Or.inr (Or.inl ⟨he.trans ge, by omega⟩)
  · exact Or.inr (Or.inr ⟨he.trans ge, hc.trans gc, by omega⟩)

/-- Two Stats values that compare below each other in neither direction are
equal. -/
theorem Stats.eq_of_not_lt (a b : Stats)
    (h1 : ¬ Stats.lt a b = true) (h2 : ¬ Stats.lt b a = true) : a = b := by
  rw [Stats.lt_spec] at h1 h2
  push_neg at h1 h2
  obtain ⟨aw, ac, ab⟩ := a
  obtain ⟨bw, bc, bb⟩ := b
  simp only at h1 h2 ⊢
  have hw : aw = bw := le_antisymm h2.1 h1.1
  subst hw
  have hc : ac = bc := le_antisymm (h2.2.1 rfl) (h1.2.1 rfl)
  subst hc
  have hb : ab = bb := le_antisymm (h1.2.2 rfl rfl) (h2.2.2 rfl rfl)
  subst hb
  rfl

/-- The program weak order is total. -/
theorem Program.le_total (a b : Program) :
    Program.le a b || Program.le b a := by
  unfold Program.le
  by_cases h1 : Stats.lt b.stats a.stats = true
  · by_cases h2 : Stats.lt a.stats b.stats = true
    · exact absurd (Stats.lt_asymm _ _ h2 h1) (fun h => h)
    · simp [h2]
  · simp [h1]

/-- The program weak order is transitive. -/
theorem Program.le_trans (a b c : Program)
    (h1 : Program.le a b) (h2 : Program.le b c) : Program.le a c := by
  unfold Program.le at h1 h2 ⊢
  simp only [Bool.not_eq_true'] at h1 h2 ⊢
  by_contra hca
  simp only [Bool.not_eq_false] at hca
  by_cases hab : Stats.lt a.stats b.stats = true
  · exact absurd (Stats.lt_trans _ _ _ hca hab)
      (by simp [h2])
  · have : a.stats = b.stats := Stats.eq_of_not_lt _ _ hab (by simp [h1])
    rw [this] at hca
    exact absurd hca (by simp [h2])

/-- The result of the model's `std::sort` is non-decreasing in Stats order. -/
theorem sortByStats_sorted (l : List Program) : SortedByStats (sortByStats l) := by
  unfold SortedByStats sortByStats
  have hs := List.sorted_mergeSort
    (fun a b c => Program.le_trans a b c)
    (fun a b => Program.le_total a b) l
  exact hs

/-- Sorting permutes the list. -/
theorem sortByStats_perm (l : List Program) : (sortByStats l).Perm l :=
  List.mergeSort_perm l Program.le

/-- The biased select index always falls inside the elite prefix when the
prefix is nonempty. -/
theorem selectIdx_lt (rnd : Random) (limit : Nat) (h : 1 ≤ limit) :
    (selectIdx rnd limit).1 < limit := by
  unfold selectIdx
  have hle : (0 : Int) ≤ (limit : Int) - 1 := by omega
  have h1 := Random.get_mem rnd 0 ((limit : Int) - 1) hle
  have h2 := Random.get_mem (rnd.get 0 ((limit : Int) - 1)).2 0
    ((limit : Int) - 1) hle
  simp only
  omega

/-- Refilling an empty population fails at the first parent selection. -/
theorem refill_empty_none (fuel apex : Nat) (pop : Population)
    (hemp : pop.programs = []) (hpos : 0 < pop.params.pop_cnt)
    (hf : 0 < fuel) : Population.refill fuel apex pop = none := by
  cases fuel with
  | zero => omega
  | succ fuel =>
    unfold Population.refill
    rw [if_pos (by rw [hemp]; simpa using hpos)]
    have hnone : (pop.select apex).1 = none := by
      unfold Population.select
      rw [hemp]
      simp
    rw [hnone]

/-- Specification of the refill loop: with a nonempty elite prefix and enough
fuel it succeeds, only appends programs, and stops exactly at `pop_cnt`. -/
theorem refill_spec :
    ∀ (fuel apex : Nat) (pop : Population),
      1 ≤ apex → apex ≤ pop.programs.length →
      pop.programs.length ≤ pop.params.pop_cnt →
      pop.params.pop_cnt ≤ pop.programs.length + fuel →
      ∃ pop', Population.refill fuel apex pop = some pop' ∧
        pop'.params = pop.params ∧ pop'.gen = pop.gen ∧
        ∃ newPs, pop'.programs = pop.programs ++ newPs ∧
          pop'.programs.length = pop.params.pop_cnt := by
  intro fuel
  induction fuel with
  | zero =>
    intro apex pop h1 h2 h3 h4
    exact ⟨pop, rfl, rfl, rfl, [], by simp, by omega⟩
  | succ fuel ih =>
    intro apex pop h1 h2 h3 h4
    by_cases hlt : pop.programs.length < pop.params.pop_cnt
    · have hidx : (selectIdx pop.rnd apex).1 < apex := selectIdx_lt _ _ h1
      have hidx2 : (selectIdx pop.rnd apex).1 < pop.programs.length := by omega
      have hsome : (pop.select apex).1
          = some (pop.programs.get ⟨(selectIdx pop.rnd apex).1, hidx2⟩) := by
        unfold Population.select
        simp only
        exact List.get?_eq_get hidx2
      obtain ⟨pop', heq, hparams, hgen, newPs, hprog, hlen⟩ :=
        ih apex
          { pop with
              rnd := (Population.mutateProg
                { pop with rnd := (pop.select apex).2 }
                (pop.programs.get ⟨(selectIdx pop.rnd apex).1, hidx2⟩)).2,
              programs := pop.programs ++
                [findWeakness pop.hook
                  (Population.mutateProg
                    { pop with rnd := (pop.select apex).2 }
                    (pop.programs.get ⟨(selectIdx pop.rnd apex).1, hidx2⟩)).1] }
          h1 (by simp; omega) (by simp; omega) (by simp; omega)
      refine ⟨pop', ?_, hparams, hgen,
        findWeakness pop.hook
          (Population.mutateProg
            { pop with rnd := (pop.select apex).2 }
            (pop.programs.get ⟨(selectIdx pop.rnd apex).1, hidx2⟩)).1 :: newPs,
        ?_, ?_⟩
      · show Population.refill (fuel + 1) apex pop = some pop'
        unfold Population.refill
        rw [if_pos hlt, hsome]
        exact heq
      · rw [hprog]
        simp
      · rw [hlen]
    · unfold Population.refill
      rw [if_neg hlt]
      exact ⟨pop, rfl, rfl, rfl, [], by simp, by omega⟩

/-- C10: the elite count is the integer division `pop_cnt / 10`.  For every
population with `0 < pop_cnt < 10` the truncation empties the population and
the first parent selection draws from an empty range, so `tick` has no result;
for `pop_cnt ≥ 10` the tick is well-defined and every index the biased select
produces lies inside the elite prefix. -/
theorem tick_apex_safety (pop : Population)
    (hlen : pop.programs.length = pop.params.pop_cnt) :
    (pop.params.pop_cnt < 10 →
      pop.params.pop_cnt / 10 = 0 ∧
      pop.programs.take (pop.params.pop_cnt / 10) = [] ∧
      (0 < pop.params.pop_cnt → pop.tick = none)) ∧
    (10 ≤ pop.params.pop_cnt →
      (pop.tick).isSome = true ∧
      ∀ r : Random, (selectIdx r (pop.params.pop_cnt / 10)).1
        < pop.params.pop_cnt / 10) := by
  constructor
  · intro hsmall
    have hz : pop.params.pop_cnt / 10 = 0 := Nat.div_eq_of_lt hsmall
    refine ⟨hz, by rw [hz]; exact List.take_zero _, ?_⟩
    intro hpos
    unfold Population.tick
    rw [refill_empty_none _ _ _ (by simp [hz]) (by simpa using hpos)
      (by simpa using hpos)]
  · intro h10
    have hapex1 : 1 ≤ pop.params.pop_cnt / 10 :=
      (Nat.one_le_div_iff (by norm_num)).mpr h10
    have hapexle : pop.params.pop_cnt / 10 ≤ pop.params.pop_cnt :=
      Nat.div_le_self _ _
    obtain ⟨pop', heq, _, _, _, _, _⟩ :=
      refill_spec pop.params.pop_cnt (pop.params.pop_cnt / 10)
        { pop with gen := pop.gen + 1,
                   programs := pop.programs.take (pop.params.pop_cnt / 10) }
        hapex1
        (by simp only [List.length_take]; omega)
        (by simp only [List.length_take]; omega)
        (by simp only [List.length_take]; omega)
    refine ⟨?_, fun r => selectIdx_lt r _ hapex1⟩
    unfold Population.tick
    rw [heq]
    rfl

/-- C4: after `grow()` the stored sequence is non-decreasing in Stats order;
every completing `tick()` first truncates to the elite prefix `pop_cnt / 10`,
then appends newly produced programs until the population again holds exactly
`pop_cnt`, and finally sorts, so its result is also non-decreasing. -/
theorem population_sorted_after_grow_and_tick (pop : Population)
    (hlen : pop.programs.length = pop.params.pop_cnt)
    (h10 : 10 ≤ pop.params.pop_cnt) :
    SortedByStats (Population.grow pop).programs ∧
    ∃ pop' newPs,
      pop.tick = some pop' ∧
      pop'.programs
        = sortByStats (pop.programs.take (pop.params.pop_cnt / 10) ++ newPs) ∧
      (pop.programs.take (pop.params.pop_cnt / 10) ++ newPs).length
        = pop.params.pop_cnt ∧
      SortedByStats pop'.programs := by
  constructor
  · unfold Population.grow
    exact sortByStats_sorted _
  · have hapex1 : 1 ≤ pop.params.pop_cnt / 10 :=
      (Nat.one_le_div_iff (by norm_num)).mpr h10
    obtain ⟨pop'', heq, hparams, hgen, newPs, hprog, hlen'⟩ :=
      refill_spec pop.params.pop_cnt (pop.params.pop_cnt / 10)
        { pop with gen := pop.gen + 1,
                   programs := pop.programs.take (pop.params.pop_cnt / 10) }
        hapex1
        (by simp only [List.length_take]; omega)
        (by simp only [List.length_take]; omega)
        (by simp only [List.length_take]; omega)
    refine ⟨{ pop'' with programs := sortByStats pop''.programs }, newPs,
      ?_, ?_, ?_, sortByStats_sorted _⟩
    · unfold Population.tick
      rw [heq]
    · simp only
      rw [hprog]
    · have : pop''.programs.length
          = (pop.programs.take (pop.params.pop_cnt / 10) ++ newPs).length := by
        rw [hprog]
      rw [← this, hlen']

/-- Witness for C4 at the concrete ten-program population. -/
theorem population_sorted_witness :
    popW.programs.length = popW.params.pop_cnt ∧ 10 ≤ popW.params.pop_cnt ∧
      (SortedByStats (Population.grow popW).programs ∧
       ∃ pop' newPs,
         popW.tick = some pop' ∧
         pop'.programs
           = sortByStats (popW.programs.take (popW.params.pop_cnt / 10) ++ newPs) ∧
         (popW.programs.take (popW.params.pop_cnt / 10) ++ newPs).length
           = popW.params.pop_cnt ∧
         SortedByStats pop'.programs) :=
  ⟨by decide, by decide,
    population_sorted_after_grow_and_tick popW (by decide) (by decide)⟩

/-- Witness for C10 at the concrete ten-program population. -/
theorem tick_apex_safety_witness :
    popW.programs.length = popW.params.pop_cnt ∧
      ((popW.params.pop_cnt < 10 →
        popW.params.pop_cnt / 10 = 0 ∧
        popW.programs.take (popW.params.pop_cnt / 10) = [] ∧
        (0 < popW.params.pop_cnt → popW.tick = none)) ∧
       (10 ≤ popW.params.pop_cnt →
        (popW.tick).isSome = true ∧
        ∀ r : Random, (selectIdx r (popW.params.pop_cnt / 10)).1
          < popW.params.pop_cnt / 10)) :=
  ⟨by decide, tick_apex_safety popW (by decide)⟩

end VespaGP
